import Mathlib

/-!
Shallow embedding of `tut` (src/main.rs): a trace-unification tool.

The tool loads a reference list of valid basic-block addresses, then for
each trace file parses lines of the form `<id:hex> <pc:hex> <hits:dec>`,
drops lines whose program counter is not in the reference list, remaps
the identifiers of the retained lines by subtracting the running count of
dropped lines, and serializes the result (optionally stripped of the
identifier column).

Modelling conventions:
* Files are modelled as their list of lines (`List String`), exactly what
  `BufReader::lines` yields (no trailing newline in any line).
* Rust `usize` is modelled as `Nat` with an explicit 64-bit overflow check
  in integer parsing (`usize::from_str_radix` / `str::parse::<usize>`
  return `PosOverflow` past `2^64 - 1`); arithmetic that the source can
  only reach with in-range values keeps plain `Nat`.
* A Rust panic (out-of-bounds slice index, debug-mode subtraction
  overflow, `assert_eq!` failure, `Result::unwrap` on an error) is an
  explicit `panic` outcome of the embedded function.
* IO is outside the embedding: opening files, `File::create`, and the
  verbose `println!` are dropped; the drop counter `id_offset` that the
  verbose message reports is returned alongside the entries so that it
  stays observable.
-/

namespace Tut

/-- Error kinds of Rust `core::num::ParseIntError` reachable when parsing
an unsigned 64-bit integer. -/
inductive IntErrorKind where
  | empty
  | invalidDigit
  | posOverflow
deriving DecidableEq, Repr

/-- Result of Rust's `usize::from_str_radix` / `str::parse::<usize>`. -/
inductive ParseIntResult where
  | ok (n : Nat)
  | err (e : IntErrorKind)
deriving DecidableEq, Repr

/-- `Option` view of a `ParseIntResult`, as `Result::ok()` produces. -/
def ParseIntResult.toOption : ParseIntResult → Option Nat
  | .ok n => some n
  | .err _ => none

/-- One past the largest `usize` value (64-bit target). -/
def USIZE_BOUND : Nat := 2 ^ 64

/-- Rust `char::to_digit` before the radix check: digit value of an
ASCII digit or letter. -/
def charDigit (c : Char) : Option Nat :=
  if '0' ≤ c ∧ c ≤ '9' then some (c.toNat - '0'.toNat)
  else if 'a' ≤ c ∧ c ≤ 'z' then some (c.toNat - 'a'.toNat + 10)
  else if 'A' ≤ c ∧ c ≤ 'Z' then some (c.toNat - 'A'.toNat + 10)
  else none

/-- Rust `char::to_digit(radix)`. -/
def digitVal (radix : Nat) (c : Char) : Option Nat :=
  match charDigit c with
  | some d => if d < radix then some d else none
  | none => none

/-- Digit-accumulation loop of `from_str_radix` for an unsigned 64-bit
integer: most-significant digit first, `checked_mul`/`checked_add`
against `2^64`. -/
def parseDigitsAux (radix : Nat) : List Char → Nat → ParseIntResult
  | [], acc => .ok acc
  | c :: cs, acc =>
    match digitVal radix c with
    | none => .err .invalidDigit
    | some d =>
      if acc * radix + d < USIZE_BOUND then parseDigitsAux radix cs (acc * radix + d)
      else .err .posOverflow

/-- Rust `usize::from_str_radix(s, radix)` (also `s.parse::<usize>()`
with `radix = 10`): empty input is `Empty`, an optional leading `+` is
allowed (`-` is not a digit for an unsigned type), then the digit loop. -/
def from_str_radix (radix : Nat) (s : String) : ParseIntResult :=
  match s.toList with
  | [] => .err .empty
  | c :: cs =>
    if c = '+' then
      match cs with
      | [] => .err .empty
      | _ => parseDigitsAux radix cs 0
    else parseDigitsAux radix (c :: cs) 0

/-- Split a character list at the first occurrence of `sep`; `none` when
`sep` does not occur. -/
def splitOnce (sep : Char) : List Char → Option (List Char × List Char)
  | [] => none
  | c :: cs =>
    if c = sep then some ([], cs)
    else
      match splitOnce sep cs with
      | none => none
      | some (pre, post) => some (c :: pre, post)

/-- Rust `str::splitn(n, sep)` collected to a vector: at most `n`
substrings, the last one keeping any further separators. -/
def splitn (n : Nat) (sep : Char) (s : List Char) : List (List Char) :=
  match n with
  | 0 => []
  | 1 => [s]
  | m + 1 =>
    match splitOnce sep s with
    | none => [s]
    | some (pre, post) => pre :: splitn m sep post

/-- One record of a trace file (`struct BasicBlockEntry`). -/
structure BasicBlockEntry where
  id : Nat
  program_counter : Nat
  hit_counter : Nat
deriving DecidableEq, Repr

/-- Minimal lower-case base-`base` digit string of `n`, most significant
digit first, as Rust `{:x}` / `{}` formatting produces; fuelled
structural recursion (`fuel > n` suffices). -/
def natDigitsAux (base : Nat) : Nat → Nat → List Char
  | 0, _ => []
  | fuel + 1, n =>
    if n < base then [Nat.digitChar n]
    else natDigitsAux base fuel (n / base) ++ [Nat.digitChar (n % base)]

/-- Digit string of `n` in the given base (Rust `{:x}` for 16, `{}` for 10). -/
def natDigits (base n : Nat) : List Char := natDigitsAux base (n + 1) n

/-- Rust `{:x}` on a `usize`. -/
def hexStr (n : Nat) : String := String.mk (natDigits 16 n)

/-- Rust `{}` on a `usize`. -/
def decStr (n : Nat) : String := String.mk (natDigits 10 n)

/-- Character list of Rust `{:04x}`: zero-padded on the left to at least
four digits. -/
def hexPad4List (n : Nat) : List Char :=
  List.replicate (4 - (natDigits 16 n).length) '0' ++ natDigits 16 n

/-- Rust `{:04x}` on a `usize`. -/
def hexPad4 (n : Nat) : String := String.mk (hexPad4List n)

/-- `impl Display for BasicBlockEntry`: `alternate = false` renders
`"{:04x} {:x} {}"` (id, pc, hits); `alternate = true` (the `{:#}`
stripped form) renders `"{:x} {}"` (pc, hits). -/
def BasicBlockEntry.fmt (e : BasicBlockEntry) (alternate : Bool) : String :=
  if !alternate then
    String.mk (hexPad4List e.id ++ (' ' :: (natDigits 16 e.program_counter
      ++ (' ' :: natDigits 10 e.hit_counter))))
  else
    String.mk (natDigits 16 e.program_counter ++ (' ' :: natDigits 10 e.hit_counter))

/-- Outcome of handling one line inside `parse_bb_trace_file`'s loop
body before the membership test: Rust evaluation order is
`parts[0]` parsed (hex), `parts[1]` indexed then parsed (hex),
`parts[2]` indexed then parsed (decimal); an out-of-bounds index is a
panic, a failed numeric parse propagates with `?`. -/
inductive LineOutcome where
  | panic
  | err (e : IntErrorKind)
  | ok (id pc hit : Nat)
deriving DecidableEq, Repr

/-- The per-line splitting and field parsing of `parse_bb_trace_file`:
`let parts: Vec<&str> = line.splitn(3, ' ').collect();` followed by the
three field parses in source order. -/
def parseLine (line : String) : LineOutcome :=
  let parts := splitn 3 ' ' line.toList
  match parts.get? 0 with
  | none => .panic
  | some p0 =>
    match from_str_radix 16 (String.mk p0) with
    | .err e => .err e
    | .ok id =>
      match parts.get? 1 with
      | none => .panic
      | some p1 =>
        match from_str_radix 16 (String.mk p1) with
        | .err e => .err e
        | .ok pc =>
          match parts.get? 2 with
          | none => .panic
          | some p2 =>
            match from_str_radix 10 (String.mk p2) with
            | .err e => .err e
            | .ok hit => .ok id pc hit

/-- Mutable state of `parse_bb_trace_file`'s loop: the three parallel
vectors and the running drop counter `id_offset`. -/
structure LoopState where
  ids : List Nat
  pcs : List Nat
  hits : List Nat
  id_offset : Nat
deriving DecidableEq, Repr

/-- Initial loop state (empty vectors, `id_offset = 0`). -/
def initState : LoopState := ⟨[], [], [], 0⟩

/-- Generic outcome of a fallible piece of the pipeline: a Rust panic,
an error propagated with `?`, or a value. -/
inductive StepResult (α : Type) where
  | panic
  | err (e : IntErrorKind)
  | ok (a : α)
deriving DecidableEq, Repr

/-- One iteration of the `for line in reader.lines()` loop: parse the
line, test `valid_bb.contains(&pc)`, and either push
`id - id_offset` / `pc` / `hit_count` or increment `id_offset`.
The subtraction `id - id_offset` is a debug-mode panic when it would
underflow. -/
def stepLine (valid_bb : List Nat) (line : String) (st : LoopState) : StepResult LoopState :=
  match parseLine line with
  | .panic => .panic
  | .err e => .err e
  | .ok id pc hit =>
    if valid_bb.contains pc then
      if id < st.id_offset then .panic
      else .ok ⟨st.ids ++ [id - st.id_offset], st.pcs ++ [pc], st.hits ++ [hit], st.id_offset⟩
    else .ok ⟨st.ids, st.pcs, st.hits, st.id_offset + 1⟩

/-- The whole line loop of `parse_bb_trace_file`. -/
def runLines (valid_bb : List Nat) : List String → LoopState → StepResult LoopState
  | [], st => .ok st
  | l :: ls, st =>
    match stepLine valid_bb l st with
    | .panic => .panic
    | .err e => .err e
    | .ok st' => runLines valid_bb ls st'

/-- The entry-building loop `for i in 0..ids.len()` under the assertion
that the three vectors have equal length. -/
def mkEntries : List Nat → List Nat → List Nat → List BasicBlockEntry
  | i :: is, p :: ps, h :: hs => ⟨i, p, h⟩ :: mkEntries is ps hs
  | _, _, _ => []

/-- The tail of `parse_bb_trace_file` after the loop:
`ids.truncate(program_counters.len())`, the two `assert_eq!` integrity
checks (an assertion failure is a panic), and the zip into
`BasicBlockEntry` values. -/
def finishState (st : LoopState) : StepResult (List BasicBlockEntry × Nat) :=
  let ids := st.ids.take st.pcs.length
  if ids.length = st.pcs.length ∧ st.pcs.length = st.hits.length then
    .ok (mkEntries ids st.pcs st.hits, st.id_offset)
  else .panic

/-- `fn parse_bb_trace_file(path, valid_bb, verbose)`: the file is given
as its list of lines; the result carries the entries together with the
final `id_offset` (the dropped-line count the verbose diagnostic
reports). -/
def parse_bb_trace_file (lines : List String) (valid_bb : List Nat) :
    StepResult (List BasicBlockEntry × Nat) :=
  match runLines valid_bb lines initState with
  | .panic => .panic
  | .err e => .err e
  | .ok st => finishState st

/-- Structurally recursive restatement of the loop of
`parse_bb_trace_file`, carrying only the running `id_offset`; proved
equal to the accumulator version below (`parse_eq_spec`). -/
def specEntries (valid_bb : List Nat) : Nat → List String → StepResult (List BasicBlockEntry × Nat)
  | off, [] => .ok ([], off)
  | off, l :: ls =>
    match parseLine l with
    | .panic => .panic
    | .err e => .err e
    | .ok id pc hit =>
      if valid_bb.contains pc then
        if id < off then .panic
        else
          match specEntries valid_bb off ls with
          | .ok (es, d) => .ok (⟨id - off, pc, hit⟩ :: es, d)
          | r => r
      else specEntries valid_bb (off + 1) ls

/-- `fn write_trace_file(traces, file_path, strip)` reduced to the lines
it writes: each entry rendered with `{}` (non-stripped) or `{:#}`
(stripped). -/
def write_trace_file (traces : List BasicBlockEntry) (strip : Bool) : List String :=
  traces.map (fun t => t.fmt strip)

/-- Reference-set construction in `main`: every line of the valid-bb
file parsed as base-16, failures silently dropped by
`filter_map(|l| usize::from_str_radix(&l, 16).ok())`. -/
def load_valid_bb (lines : List String) : List Nat :=
  lines.filterMap (fun l => (from_str_radix 16 l).toOption)

/-- The `anyhow` context `main` attaches to a per-file parse failure
(`PathBuf` renders `{:?}`-quoted). -/
def contextForFile (name : String) : String :=
  "Error while parsing trace file \"" ++ name ++ "\""

/-- Outcome of one file's pipeline inside `main`'s per-file closure,
up to the `unwrap`s: a panic from parsing, a context-wrapped parse
error, or the lines written to the output file. -/
inductive FileOutcome where
  | panic
  | fileErr (ctx : String) (e : IntErrorKind)
  | written (outLines : List String)
deriving DecidableEq, Repr

/-- The body of `main`'s per-file closure: `parse_bb_trace_file` with
its `with_context`, then `write_trace_file`; the `unwrap` that turns
`fileErr` into a panic is applied by `runBatch`. -/
def processFile (name : String) (valid_bb : List Nat) (strip : Bool)
    (lines : List String) : FileOutcome :=
  match parse_bb_trace_file lines valid_bb with
  | .panic => .panic
  | .err e => .fileErr (contextForFile name) e
  | .ok (entries, _) => .written (write_trace_file entries strip)

/-- Output file name `main` builds for an input stem: `set_extension`
appends `unified` or `stripped`. -/
def outName (stem : String) (strip : Bool) : String :=
  stem ++ (if strip then ".stripped" else ".unified")

/-- Result of the whole batch: either every file was written, or some
file's `unwrap` panicked, aborting the batch with only the outputs
already written. -/
inductive BatchResult where
  | panicked (written : List (String × List String))
  | ok (written : List (String × List String))
deriving DecidableEq, Repr

/-- `main`'s `trace_file_paths.par_iter().for_each(...)` loop over
(stem, lines) pairs, modelled as one sequential linearization of the
rayon dispatch: each file is parsed and written; the `unwrap` on a
failed parse panics, which aborts the batch (files not yet processed in
this linearization produce no output and no collected failure report). -/
def runBatch (valid_bb : List Nat) (strip : Bool) :
    List (String × List String) → BatchResult
  | [] => .ok []
  | (stem, lines) :: rest =>
    match processFile stem valid_bb strip lines with
    | .written out =>
      match runBatch valid_bb strip rest with
      | .ok ws => .ok ((outName stem strip, out) :: ws)
      | .panicked ws => .panicked ((outName stem strip, out) :: ws)
    | _ => .panicked []

/-- Boolean test: the line parses and its program counter is in the
reference list (the line is retained). -/
def lineRetained (valid_bb : List Nat) (l : String) : Bool :=
  match parseLine l with
  | .ok _ pc _ => valid_bb.contains pc
  | _ => false

/-- Boolean test: the line parses and its program counter is not in the
reference list (the line is dropped and `id_offset` incremented). -/
def lineDropped (valid_bb : List Nat) (l : String) : Bool :=
  match parseLine l with
  | .ok _ pc _ => !valid_bb.contains pc
  | _ => false

/-! ### Digit and formatting lemmas -/

/-- `String.mk` and `toList` are inverse. -/
lemma toList_mk (l : List Char) : (String.mk l).toList = l := rfl

lemma digitChar_spec (d : Nat) (hd : d < 16) :
    charDigit (Nat.digitChar d) = some d ∧
    Nat.digitChar d ≠ '+' ∧ Nat.digitChar d ≠ ' ' := by
  interval_cases d <;> exact ⟨rfl, by decide, by decide⟩

lemma digitVal_digitChar (b d : Nat) (hd : d < b) (hb : b ≤ 16) :
    digitVal b (Nat.digitChar d) = some d := by
  have h := (digitChar_spec d (lt_of_lt_of_le hd hb)).1
  simp [digitVal, h, hd]

lemma natDigitsAux_mem (b : Nat) (hb2 : 2 ≤ b) (hb : b ≤ 16) :
    ∀ fuel n c, c ∈ natDigitsAux b fuel n → ∃ d, d < b ∧ c = Nat.digitChar d := by
  intro fuel
  induction fuel with
  | zero => intro n c hc; simp [natDigitsAux] at hc
  | succ fuel ih =>
    intro n c hc
    by_cases hn : n < b
    · simp [natDigitsAux, hn] at hc
      exact ⟨n, hn, hc⟩
    · simp [natDigitsAux, hn, List.mem_append] at hc
      rcases hc with h1 | h2
      · exact ih _ c h1
      · exact ⟨n % b, Nat.mod_lt _ (by omega), h2⟩

lemma natDigitsAux_ne_nil (b fuel n : Nat) : natDigitsAux b (fuel + 1) n ≠ [] := by
  by_cases hn : n < b <;> simp [natDigitsAux, hn]

lemma parseDigitsAux_append (b : Nat) :
    ∀ (xs ys : List Char) (acc : Nat),
    parseDigitsAux b (xs ++ ys) acc =
      match parseDigitsAux b xs acc with
      | .ok a => parseDigitsAux b ys a
      | r => r := by
  intro xs
  induction xs with
  | nil => intro ys acc; rfl
  | cons c cs ih =>
    intro ys acc
    simp only [List.cons_append, parseDigitsAux]
    cases hd : digitVal b c with
    | none => rfl
    | some d =>
      by_cases hlt : acc * b + d < USIZE_BOUND <;> simp [hlt, ih]

lemma parseDigitsAux_natDigitsAux (b : Nat) (hb2 : 2 ≤ b) (hb16 : b ≤ 16) :
    ∀ (fuel n acc : Nat), n < fuel →
    acc * b ^ (natDigitsAux b fuel n).length + n < USIZE_BOUND →
    parseDigitsAux b (natDigitsAux b fuel n) acc =
      .ok (acc * b ^ (natDigitsAux b fuel n).length + n) := by
  intro fuel
  induction fuel with
  | zero => intro n acc hn; omega
  | succ fuel ih =>
    intro n acc hn hbound
    by_cases h : n < b
    · simp only [natDigitsAux, if_pos h] at hbound ⊢
      simp only [List.length_singleton, pow_one] at hbound ⊢
      simp [parseDigitsAux, digitVal_digitChar b n h hb16, hbound]
    · simp only [natDigitsAux, if_neg h] at hbound ⊢
      have hpos : 0 < n := by omega
      have hdiv : n / b < fuel :=
        lt_of_lt_of_le (Nat.div_lt_self hpos (by omega)) (by omega)
      set L := (natDigitsAux b fuel (n / b)).length with hL
      have hlen : (natDigitsAux b fuel (n / b) ++ [Nat.digitChar (n % b)]).length = L + 1 := by
        simp [hL]
      rw [hlen] at hbound ⊢
      have hqr : n / b * b + n % b = n := Nat.div_add_mod' n b
      have h1 : acc * b ^ (L + 1) + n = (acc * b ^ L + n / b) * b + n % b := by
        conv_lhs => rw [← hqr]
        ring
      rw [h1] at hbound ⊢
      have hxb : acc * b ^ L + n / b ≤ (acc * b ^ L + n / b) * b :=
        Nat.le_mul_of_pos_right _ (by omega)
      have hxlt : acc * b ^ L + n / b < USIZE_BOUND := by omega
      rw [parseDigitsAux_append, ih (n / b) acc hdiv hxlt]
      have hmod : n % b < b := Nat.mod_lt _ (by omega)
      simp [parseDigitsAux, digitVal_digitChar b (n % b) hmod hb16, hbound]

lemma parseDigitsAux_natDigits (b n : Nat) (hb2 : 2 ≤ b) (hb16 : b ≤ 16)
    (h : n < USIZE_BOUND) : parseDigitsAux b (natDigits b n) 0 = .ok n := by
  have h2 := parseDigitsAux_natDigitsAux b hb2 hb16 (n + 1) n 0 (Nat.lt_succ_self n)
    (by simpa using h)
  simpa [natDigits] using h2

lemma parseDigitsAux_replicate_zero (b : Nat) (hb2 : 2 ≤ b) :
    ∀ (k : Nat) (ds : List Char),
    parseDigitsAux b (List.replicate k '0' ++ ds) 0 = parseDigitsAux b ds 0 := by
  intro k
  induction k with
  | zero => intro ds; rfl
  | succ k ih =>
    intro ds
    have hz : charDigit '0' = some 0 := by decide
    have hbound : 0 * b + 0 < USIZE_BOUND := by
      simp [USIZE_BOUND]
    simp only [List.replicate_succ, List.cons_append, parseDigitsAux, digitVal, hz,
      if_pos (by omega : 0 < b)]
    simp only [if_pos hbound]
    simpa using ih ds

lemma from_str_radix_cons (b : Nat) (c : Char) (cs : List Char) (h : c ≠ '+') :
    from_str_radix b (String.mk (c :: cs)) = parseDigitsAux b (c :: cs) 0 := by
  simp [from_str_radix, toList_mk, h]

lemma from_str_radix_natDigits (b n : Nat) (hb2 : 2 ≤ b) (hb16 : b ≤ 16)
    (h : n < USIZE_BOUND) : from_str_radix b (String.mk (natDigits b n)) = .ok n := by
  cases heq : natDigits b n with
  | nil => exact absurd heq (natDigitsAux_ne_nil b n n)
  | cons c cs =>
    have hc : c ∈ natDigits b n := by rw [heq]; exact List.mem_cons_self c cs
    obtain ⟨d, hd, hcd⟩ := natDigitsAux_mem b hb2 hb16 (n + 1) n c hc
    have hplus : c ≠ '+' := hcd ▸ (digitChar_spec d (lt_of_lt_of_le hd hb16)).2.1
    have hparse := parseDigitsAux_natDigits b n hb2 hb16 h
    rw [heq] at hparse
    rw [from_str_radix_cons b c cs hplus]
    exact hparse

lemma from_str_radix_hexPad4 (n : Nat) (h : n < USIZE_BOUND) :
    from_str_radix 16 (hexPad4 n) = .ok n := by
  unfold hexPad4 hexPad4List
  cases hk : 4 - (natDigits 16 n).length with
  | zero =>
    simpa using from_str_radix_natDigits 16 n (by norm_num) (by norm_num) h
  | succ j =>
    have hplus : ('0' : Char) ≠ '+' := by decide
    rw [List.replicate_succ, List.cons_append,
      from_str_radix_cons 16 '0' _ hplus, ← List.cons_append, ← List.replicate_succ,
      parseDigitsAux_replicate_zero 16 (by norm_num) (j + 1),
      parseDigitsAux_natDigits 16 n (by norm_num) (by norm_num) h]

lemma space_not_mem_natDigits (b n : Nat) (hb2 : 2 ≤ b) (hb16 : b ≤ 16) :
    ' ' ∉ natDigits b n := by
  intro hmem
  obtain ⟨d, hd, hcd⟩ := natDigitsAux_mem b hb2 hb16 (n + 1) n ' ' hmem
  exact (digitChar_spec d (lt_of_lt_of_le hd hb16)).2.2 hcd.symm

lemma space_not_mem_hexPad4List (n : Nat) : ' ' ∉ hexPad4List n := by
  intro hmem
  rcases List.mem_append.mp hmem with h1 | h2
  · have := List.eq_of_mem_replicate h1
    simp at this
  · exact space_not_mem_natDigits 16 n (by norm_num) (by norm_num) h2

/-! ### Splitting lemmas -/

lemma splitOnce_eq_none (sep : Char) :
    ∀ l : List Char, splitOnce sep l = none ↔ sep ∉ l := by
  intro l
  induction l with
  | nil => simp [splitOnce]
  | cons c cs ih =>
    by_cases hc : c = sep
    · subst hc; simp [splitOnce]
    · simp only [splitOnce, if_neg hc]
      cases hs : splitOnce sep cs with
      | none => simp [hs, ih.mp hs, Ne.symm hc]
      | some pp =>
        have : sep ∈ cs := by
          by_contra hmem
          rw [ih.mpr hmem] at hs
          exact Option.noConfusion hs
        simp [List.mem_cons, this]

lemma splitOnce_of_not_mem (sep : Char) :
    ∀ (a rest : List Char), sep ∉ a →
    splitOnce sep (a ++ sep :: rest) = some (a, rest) := by
  intro a
  induction a with
  | nil => intro rest _; simp [splitOnce]
  | cons c cs ih =>
    intro rest ha
    have hc : c ≠ sep := fun h => ha (h ▸ List.mem_cons_self c cs)
    have hcs : sep ∉ cs := fun h => ha (List.mem_cons_of_mem c h)
    simp [splitOnce, hc, ih rest hcs]

lemma splitOnce_some_spec (sep : Char) :
    ∀ (l pre post : List Char), splitOnce sep l = some (pre, post) →
    l = pre ++ sep :: post ∧ sep ∉ pre := by
  intro l
  induction l with
  | nil => intro pre post h; exact Option.noConfusion h
  | cons c cs ih =>
    intro pre post h
    by_cases hc : c = sep
    · subst hc
      simp [splitOnce] at h
      obtain ⟨h1, h2⟩ := h
      subst h1; subst h2; simp
    · simp only [splitOnce, if_neg hc] at h
      cases hs : splitOnce sep cs with
      | none => rw [hs] at h; exact Option.noConfusion h
      | some pp =>
        obtain ⟨p1, p2⟩ := pp
        rw [hs] at h
        simp at h
        obtain ⟨h1, h2⟩ := h
        obtain ⟨hl, hnm⟩ := ih p1 p2 hs
        subst h1; subst h2
        constructor
        · rw [hl]; simp
        · intro hmem
          rcases List.mem_cons.mp hmem with h | h
          · exact hc h.symm
          · exact hnm h

lemma splitn3_eq (sep : Char) (s : List Char) :
    splitn 3 sep s =
      match splitOnce sep s with
      | none => [s]
      | some (pre, post) => pre :: splitn 2 sep post := rfl

lemma splitn2_eq (sep : Char) (s : List Char) :
    splitn 2 sep s =
      match splitOnce sep s with
      | none => [s]
      | some (pre, post) => [pre, post] := rfl

lemma splitn3_of_format (A B C : List Char) (hA : ' ' ∉ A) (hB : ' ' ∉ B) :
    splitn 3 ' ' (A ++ ' ' :: (B ++ ' ' :: C)) = [A, B, C] := by
  rw [splitn3_eq, splitOnce_of_not_mem ' ' A _ hA]
  simp only
  rw [splitn2_eq, splitOnce_of_not_mem ' ' B C hB]

lemma splitn3_length (l : List Char) :
    (splitn 3 ' ' l).length = min 3 (l.countP (fun c => c == ' ') + 1) := by
  rw [splitn3_eq]
  cases h1 : splitOnce ' ' l with
  | none =>
    have hnm : ' ' ∉ l := (splitOnce_eq_none ' ' l).mp h1
    have hcnt : l.countP (fun c => c == ' ') = 0 := by
      rw [List.countP_eq_zero]
      intro a ha
      simp only [beq_iff_eq]
      intro hEq
      exact hnm (hEq ▸ ha)
    simp [hcnt]
  | some pp =>
    obtain ⟨a, rest⟩ := pp
    obtain ⟨hl, hnm⟩ := splitOnce_some_spec ' ' l a rest h1
    have hcnta : a.countP (fun c => c == ' ') = 0 := by
      rw [List.countP_eq_zero]
      intro x hx
      simp only [beq_iff_eq]
      intro hEq
      exact hnm (hEq ▸ hx)
    subst hl
    dsimp only
    rw [splitn2_eq]
    cases h2 : splitOnce ' ' rest with
    | none =>
      have hnm2 : ' ' ∉ rest := (splitOnce_eq_none ' ' rest).mp h2
      have hcnt2 : rest.countP (fun c => c == ' ') = 0 := by
        rw [List.countP_eq_zero]
        intro x hx
        simp only [beq_iff_eq]
        intro hEq
        exact hnm2 (hEq ▸ hx)
      simp [List.countP_append, List.countP_cons, hcnta, hcnt2]
    | some qq =>
      obtain ⟨b, c⟩ := qq
      obtain ⟨hr, _⟩ := splitOnce_some_spec ' ' rest b c h2
      subst hr
      simp [List.countP_append, List.countP_cons, hcnta]
      omega

/-! ### Round trip: serialized entries re-parse to themselves -/

lemma mk_append (a b : List Char) : String.mk a ++ String.mk b = String.mk (a ++ b) := rfl

lemma fmt_false_eq (e : BasicBlockEntry) :
    e.fmt false =
      hexPad4 e.id ++ " " ++ hexStr e.program_counter ++ " " ++ decStr e.hit_counter := by
  show String.mk _ = _
  rw [show (" " : String) = String.mk [' '] from rfl]
  unfold hexPad4 hexStr decStr
  rw [mk_append, mk_append, mk_append, mk_append]
  congr 1
  simp

lemma fmt_true_eq (e : BasicBlockEntry) :
    e.fmt true = hexStr e.program_counter ++ " " ++ decStr e.hit_counter := by
  show String.mk _ = _
  rw [show (" " : String) = String.mk [' '] from rfl]
  unfold hexStr decStr
  rw [mk_append, mk_append]
  congr 1
  simp

lemma parseLine_fmt (e : BasicBlockEntry) (hid : e.id < USIZE_BOUND)
    (hpc : e.program_counter < USIZE_BOUND) (hhit : e.hit_counter < USIZE_BOUND) :
    parseLine (e.fmt false) = .ok e.id e.program_counter e.hit_counter := by
  have hsplit := splitn3_of_format (hexPad4List e.id) (natDigits 16 e.program_counter)
    (natDigits 10 e.hit_counter) (space_not_mem_hexPad4List e.id)
    (space_not_mem_natDigits 16 _ (by norm_num) (by norm_num))
  show parseLine (String.mk _) = _
  simp only [parseLine, toList_mk, hsplit, List.get?]
  rw [show String.mk (hexPad4List e.id) = hexPad4 e.id from rfl,
    from_str_radix_hexPad4 e.id hid,
    from_str_radix_natDigits 16 e.program_counter (by norm_num) (by norm_num) hpc,
    from_str_radix_natDigits 10 e.hit_counter (by norm_num) (by norm_num) hhit]

/-! ### Bridging the loop to its structural restatement -/

/-- The tail of `parse_bb_trace_file` applied to the loop's outcome. -/
def finishResult : StepResult LoopState → StepResult (List BasicBlockEntry × Nat)
  | .panic => .panic
  | .err e => .err e
  | .ok st => finishState st

/-- Prepend already-built entries to a loop outcome. -/
def withPrefix (pre : List BasicBlockEntry) :
    StepResult (List BasicBlockEntry × Nat) → StepResult (List BasicBlockEntry × Nat)
  | .ok (es, d) => .ok (pre ++ es, d)
  | r => r

lemma parse_eq_finishResult (lines : List String) (valid_bb : List Nat) :
    parse_bb_trace_file lines valid_bb = finishResult (runLines valid_bb lines initState) := by
  cases h : runLines valid_bb lines initState <;>
    simp [parse_bb_trace_file, finishResult, h]

lemma mkEntries_length :
    ∀ (ids pcs hits : List Nat), ids.length = pcs.length → pcs.length = hits.length →
    (mkEntries ids pcs hits).length = ids.length := by
  intro ids
  induction ids with
  | nil => intro pcs hits _ _; rfl
  | cons a as ih =>
    intro pcs hits h1 h2
    cases pcs with
    | nil => simp at h1
    | cons b bs =>
      cases hits with
      | nil => simp at h2
      | cons c cs =>
        simp only [mkEntries, List.length_cons]
        rw [ih bs cs (by simpa using h1) (by simpa using h2)]

lemma mkEntries_append :
    ∀ (ids pcs hits : List Nat) (i p h : Nat),
    ids.length = pcs.length → pcs.length = hits.length →
    mkEntries (ids ++ [i]) (pcs ++ [p]) (hits ++ [h]) =
      mkEntries ids pcs hits ++ [⟨i, p, h⟩] := by
  intro ids
  induction ids with
  | nil =>
    intro pcs hits i p h h1 h2
    cases pcs with
    | nil =>
      cases hits with
      | nil => rfl
      | cons _ _ => simp at h2
    | cons _ _ => simp at h1
  | cons a as ih =>
    intro pcs hits i p h h1 h2
    cases pcs with
    | nil => simp at h1
    | cons b bs =>
      cases hits with
      | nil => simp at h2
      | cons c cs =>
        simp only [List.cons_append, mkEntries, List.append_eq]
        rw [ih bs cs i p h (by simpa using h1) (by simpa using h2)]

lemma finish_runLines (valid_bb : List Nat) :
    ∀ (lines : List String) (st : LoopState),
    st.ids.length = st.pcs.length → st.pcs.length = st.hits.length →
    finishResult (runLines valid_bb lines st) =
      withPrefix (mkEntries st.ids st.pcs st.hits)
        (specEntries valid_bb st.id_offset lines) := by
  intro lines
  induction lines with
  | nil =>
    intro st h1 h2
    simp only [runLines, specEntries, finishResult, withPrefix]
    unfold finishState
    rw [← h1, List.take_length]
    simp [h1, h2]
  | cons l ls ih =>
    intro st h1 h2
    simp only [runLines, stepLine]
    cases hpl : parseLine l with
    | panic => simp [specEntries, hpl, finishResult, withPrefix]
    | err e => simp [specEntries, hpl, finishResult, withPrefix]
    | ok id pc hit =>
      simp only [specEntries, hpl]
      by_cases hmem : valid_bb.contains pc
      · rw [if_pos hmem, if_pos hmem]
        by_cases hlt : id < st.id_offset
        · rw [if_pos hlt, if_pos hlt]
          simp [finishResult, withPrefix]
        · rw [if_neg hlt, if_neg hlt]
          dsimp only
          have ih' := ih ⟨st.ids ++ [id - st.id_offset], st.pcs ++ [pc],
            st.hits ++ [hit], st.id_offset⟩ (by simp [h1]) (by simp [h2])
          simp only at ih'
          rw [ih']
          cases hs : specEntries valid_bb st.id_offset ls with
          | panic => simp [withPrefix]
          | err e => simp [withPrefix]
          | ok p =>
            obtain ⟨es, d⟩ := p
            simp only [withPrefix]
            rw [mkEntries_append st.ids st.pcs st.hits _ _ _ h1 h2]
            simp
      · rw [if_neg hmem, if_neg hmem]
        dsimp only
        have ih' := ih ⟨st.ids, st.pcs, st.hits, st.id_offset + 1⟩ h1 h2
        simp only at ih'
        exact ih'

/-- The faithful accumulator implementation equals its structural
restatement. -/
lemma parse_eq_spec (lines : List String) (valid_bb : List Nat) :
    parse_bb_trace_file lines valid_bb = specEntries valid_bb 0 lines := by
  rw [parse_eq_finishResult]
  have h := finish_runLines valid_bb lines initState rfl rfl
  rw [h]
  cases hs : specEntries valid_bb 0 lines with
  | panic => simp [withPrefix, initState, mkEntries]; rw [hs]
  | err e => simp [withPrefix, initState, mkEntries]; rw [hs]
  | ok p =>
    obtain ⟨es, d⟩ := p
    simp [withPrefix, initState, mkEntries]
    rw [hs]

/-! ### Behaviour of the structural restatement -/

/-- The (pc, hit) pair a line contributes to the output, when retained. -/
def retainedPair (valid_bb : List Nat) (l : String) : Option (Nat × Nat) :=
  match parseLine l with
  | .ok _ pc hit => if valid_bb.contains pc then some (pc, hit) else none
  | _ => none

lemma spec_ok_counts (valid_bb : List Nat) :
    ∀ (lines : List String) (off : Nat) (es : List BasicBlockEntry) (d : Nat),
    specEntries valid_bb off lines = .ok (es, d) →
    es.length = lines.countP (lineRetained valid_bb) ∧
    d = off + lines.countP (lineDropped valid_bb) ∧
    es.length + lines.countP (lineDropped valid_bb) = lines.length := by
  intro lines
  induction lines with
  | nil =>
    intro off es d h
    simp only [specEntries, StepResult.ok.injEq, Prod.mk.injEq] at h
    obtain ⟨h1, h2⟩ := h
    subst h1; subst h2
    simp
  | cons l ls ih =>
    intro off es d h
    simp only [specEntries] at h
    cases hpl : parseLine l with
    | panic => rw [hpl] at h; simp at h
    | err e => rw [hpl] at h; simp at h
    | ok id pc hit =>
      rw [hpl] at h
      dsimp only at h
      by_cases hmem : valid_bb.contains pc
      · rw [if_pos hmem] at h
        by_cases hlt : id < off
        · rw [if_pos hlt] at h; simp at h
        · rw [if_neg hlt] at h
          cases hs : specEntries valid_bb off ls with
          | panic => rw [hs] at h; simp at h
          | err e => rw [hs] at h; simp at h
          | ok pp =>
            obtain ⟨es', d'⟩ := pp
            rw [hs] at h
            rw [StepResult.ok.injEq, Prod.mk.injEq] at h
            obtain ⟨hes, hd⟩ := h
            obtain ⟨c1, c2, c3⟩ := ih off es' d' hs
            subst hes; subst hd
            have hmem' : pc ∈ valid_bb := by simpa using hmem
            have hr : lineRetained valid_bb l = true := by
              simp [lineRetained, hpl, hmem']
            have hdrp : lineDropped valid_bb l = false := by
              simp [lineDropped, hpl, hmem']
            refine ⟨?_, ?_, ?_⟩ <;> simp [List.countP_cons, hr, hdrp] <;> omega
      · rw [if_neg hmem] at h
        obtain ⟨c1, c2, c3⟩ := ih (off + 1) es d h
        have hmem' : pc ∉ valid_bb := by simpa using hmem
        have hr : lineRetained valid_bb l = false := by
          simp [lineRetained, hpl, hmem']
        have hdrp : lineDropped valid_bb l = true := by
          simp [lineDropped, hpl, hmem']
        refine ⟨?_, ?_, ?_⟩ <;> simp [List.countP_cons, hr, hdrp] <;> omega

lemma spec_pairs (valid_bb : List Nat) :
    ∀ (lines : List String) (off : Nat) (es : List BasicBlockEntry) (d : Nat),
    specEntries valid_bb off lines = .ok (es, d) →
    es.map (fun e => (e.program_counter, e.hit_counter)) =
      lines.filterMap (retainedPair valid_bb) := by
  intro lines
  induction lines with
  | nil =>
    intro off es d h
    simp only [specEntries, StepResult.ok.injEq, Prod.mk.injEq] at h
    obtain ⟨h1, _⟩ := h
    subst h1
    rfl
  | cons l ls ih =>
    intro off es d h
    simp only [specEntries] at h
    cases hpl : parseLine l with
    | panic => rw [hpl] at h; simp at h
    | err e => rw [hpl] at h; simp at h
    | ok id pc hit =>
      rw [hpl] at h
      dsimp only at h
      by_cases hmem : valid_bb.contains pc
      · rw [if_pos hmem] at h
        by_cases hlt : id < off
        · rw [if_pos hlt] at h; simp at h
        · rw [if_neg hlt] at h
          cases hs : specEntries valid_bb off ls with
          | panic => rw [hs] at h; simp at h
          | err e => rw [hs] at h; simp at h
          | ok pp =>
            obtain ⟨es', d'⟩ := pp
            rw [hs] at h
            rw [StepResult.ok.injEq, Prod.mk.injEq] at h
            obtain ⟨hes, _⟩ := h
            subst hes
            simp only [List.map_cons, List.filterMap_cons, retainedPair, hpl, if_pos hmem]
            rw [ih off es' d' hs]
      · rw [if_neg hmem] at h
        simp only [List.filterMap_cons, retainedPair, hpl, if_neg hmem]
        exact ih (off + 1) es d h

lemma spec_ids_range (valid_bb : List Nat) :
    ∀ (lines : List String) (n off : Nat), off ≤ n →
    (∀ i (hi : i < lines.length), ∃ p h, parseLine (lines.get ⟨i, hi⟩) = .ok (n + i) p h) →
    ∃ es d, specEntries valid_bb off lines = .ok (es, d) ∧
      es.map (fun e => e.id) = List.range' (n - off) es.length := by
  intro lines
  induction lines with
  | nil => intro n off _ _; exact ⟨[], off, rfl, rfl⟩
  | cons l ls ih =>
    intro n off hoff hid
    obtain ⟨p, h, hpl⟩ := hid 0 (by simp)
    simp only [Nat.add_zero] at hpl
    have hpl' : parseLine l = .ok n p h := hpl
    have hid' : ∀ i (hi : i < ls.length),
        ∃ p2 h2, parseLine (ls.get ⟨i, hi⟩) = .ok ((n + 1) + i) p2 h2 := by
      intro i hi
      obtain ⟨p2, h2, hp2⟩ := hid (i + 1) (by simpa using Nat.succ_lt_succ hi)
      refine ⟨p2, h2, ?_⟩
      have hg : (l :: ls).get ⟨i + 1, by simpa using Nat.succ_lt_succ hi⟩ = ls.get ⟨i, hi⟩ := rfl
      rw [hg] at hp2
      have harith : n + (i + 1) = (n + 1) + i := by omega
      rw [harith] at hp2
      exact hp2
    simp only [specEntries, hpl']
    by_cases hmem : valid_bb.contains p
    · rw [if_pos hmem, if_neg (show ¬n < off by omega)]
      obtain ⟨es, d, hs, hmap⟩ := ih (n + 1) off (by omega) hid'
      refine ⟨⟨n - off, p, h⟩ :: es, d, ?_, ?_⟩
      · rw [hs]
      · have harith : (n + 1) - off = (n - off) + 1 := by omega
        rw [harith] at hmap
        simp only [List.map_cons, hmap, List.length_cons, List.range'_succ]
    · rw [if_neg hmem]
      obtain ⟨es, d, hs, hmap⟩ := ih (n + 1) (off + 1) (by omega) hid'
      refine ⟨es, d, hs, ?_⟩
      rw [hmap]
      congr 1
      omega

lemma spec_head (valid_bb : List Nat) :
    ∀ (lines : List String) (off : Nat) (e : BasicBlockEntry)
      (es : List BasicBlockEntry) (d : Nat),
    specEntries valid_bb off lines = .ok (e :: es, d) →
    ∃ j, ∃ hj : j < lines.length, ∃ idj p h,
      parseLine (lines.get ⟨j, hj⟩) = .ok idj p h ∧ valid_bb.contains p = true ∧
      (∀ k (hk : k < j), lineRetained valid_bb (lines.get ⟨k, Nat.lt_trans hk hj⟩) = false) ∧
      e.id = idj - (off + j) := by
  intro lines
  induction lines with
  | nil => intro off e es d h; simp [specEntries] at h
  | cons l ls ih =>
    intro off e es d h
    simp only [specEntries] at h
    cases hpl : parseLine l with
    | panic => rw [hpl] at h; simp at h
    | err e2 => rw [hpl] at h; simp at h
    | ok id pc hit =>
      rw [hpl] at h
      dsimp only at h
      by_cases hmem : valid_bb.contains pc
      · rw [if_pos hmem] at h
        by_cases hlt : id < off
        · rw [if_pos hlt] at h; simp at h
        · rw [if_neg hlt] at h
          cases hs : specEntries valid_bb off ls with
          | panic => rw [hs] at h; simp at h
          | err e2 => rw [hs] at h; simp at h
          | ok pp =>
            obtain ⟨es', d'⟩ := pp
            rw [hs] at h
            rw [StepResult.ok.injEq, Prod.mk.injEq, List.cons.injEq] at h
            obtain ⟨⟨he, _⟩, _⟩ := h
            refine ⟨0, by simp, id, pc, hit, hpl, hmem, ?_, ?_⟩
            · intro k hk; omega
            · rw [← he]; simp
      · rw [if_neg hmem] at h
        obtain ⟨j, hj, idj, p, hh, hplj, hm, hbefore, hid⟩ := ih (off + 1) e es d h
        refine ⟨j + 1, by simpa using Nat.succ_lt_succ hj, idj, p, hh, hplj, hm, ?_, ?_⟩
        · intro k hk
          cases k with
          | zero =>
            have hmem' : pc ∉ valid_bb := by simpa using hmem
            simp [lineRetained, hpl, hmem']
          | succ k2 => exact hbefore k2 (by omega)
        · rw [hid]; congr 1; omega

lemma runLines_append (valid_bb : List Nat) :
    ∀ (xs ys : List String) (st : LoopState),
    runLines valid_bb (xs ++ ys) st =
      match runLines valid_bb xs st with
      | .ok st' => runLines valid_bb ys st'
      | .panic => .panic
      | .err e => .err e := by
  intro xs
  induction xs with
  | nil => intro ys st; rfl
  | cons x xs ih =>
    intro ys st
    simp only [List.cons_append, runLines]
    cases stepLine valid_bb x st with
    | panic => rfl
    | err e => rfl
    | ok st' => exact ih ys st'

lemma runLines_wf (valid_bb : List Nat) :
    ∀ (lines : List String) (st st' : LoopState),
    runLines valid_bb lines st = .ok st' →
    st.ids.length = st.pcs.length → st.pcs.length = st.hits.length →
    st'.ids.length = st'.pcs.length ∧ st'.pcs.length = st'.hits.length := by
  intro lines
  induction lines with
  | nil => intro st st' h h1 h2; cases h; exact ⟨h1, h2⟩
  | cons l ls ih =>
    intro st st' h h1 h2
    simp only [runLines, stepLine] at h
    cases hpl : parseLine l with
    | panic => rw [hpl] at h; simp at h
    | err e => rw [hpl] at h; simp at h
    | ok id pc hit =>
      rw [hpl] at h
      dsimp only at h
      by_cases hmem : valid_bb.contains pc
      · rw [if_pos hmem] at h
        by_cases hlt : id < st.id_offset
        · rw [if_pos hlt] at h; simp at h
        · rw [if_neg hlt] at h
          exact ih _ st' h (by simp [h1]) (by simp [h2])
      · rw [if_neg hmem] at h
        exact ih _ st' h h1 h2

/-! ### Small auxiliary lemmas for the claim theorems -/

lemma chain_succ_range' : ∀ (k s : Nat),
    List.Chain' (fun a b => b = a + 1) (List.range' s k) := by
  intro k
  induction k with
  | zero => intro s; simp
  | succ k ih =>
    intro s
    rw [List.range'_succ]
    cases k with
    | zero => simp
    | succ k2 =>
      rw [List.range'_succ, List.chain'_cons]
      refine ⟨rfl, ?_⟩
      rw [← List.range'_succ]
      exact ih (s + 1)

lemma natDigits_all_hex (n : Nat) :
    (natDigits 16 n).all (fun c => "0123456789abcdef".toList.contains c) = true := by
  rw [List.all_eq_true]
  intro c hc
  obtain ⟨d, hd, hcd⟩ := natDigitsAux_mem 16 (by norm_num) (by norm_num) (n + 1) n c hc
  subst hcd
  interval_cases d <;> decide

lemma natDigits_all_dec (n : Nat) :
    (natDigits 10 n).all (fun c => "0123456789".toList.contains c) = true := by
  rw [List.all_eq_true]
  intro c hc
  obtain ⟨d, hd, hcd⟩ := natDigitsAux_mem 10 (by norm_num) (by norm_num) (n + 1) n c hc
  subst hcd
  interval_cases d <;> decide

lemma hexPad4_length (n : Nat) : 4 ≤ (hexPad4 n).length := by
  show 4 ≤ (hexPad4List n).length
  rw [hexPad4List, List.length_append, List.length_replicate]
  have h1 : 1 ≤ (natDigits 16 n).length := by
    cases hq : natDigits 16 n with
    | nil => exact absurd hq (natDigitsAux_ne_nil 16 n n)
    | cons a l => simp
  omega

lemma toOption_ok (n : Nat) : (ParseIntResult.ok n).toOption = some n := rfl

lemma toOption_err (e : IntErrorKind) : (ParseIntResult.err e).toOption = none := rfl

lemma toOption_isSome (r : ParseIntResult) (h : r.toOption.isSome = true) :
    ∃ n, r = .ok n := by
  cases r with
  | ok m => exact ⟨m, rfl⟩
  | err e => simp [ParseIntResult.toOption] at h

lemma spec_roundtrip (valid_bb : List Nat) :
    ∀ entries : List BasicBlockEntry,
    (∀ e ∈ entries, valid_bb.contains e.program_counter = true) →
    (∀ e ∈ entries, e.id < USIZE_BOUND ∧ e.program_counter < USIZE_BOUND ∧
      e.hit_counter < USIZE_BOUND) →
    specEntries valid_bb 0 (entries.map (fun t => t.fmt false)) = .ok (entries, 0) := by
  intro entries
  induction entries with
  | nil => intro _ _; rfl
  | cons e es ih =>
    intro hmem hbound
    have hb := hbound e (List.mem_cons_self e es)
    have hm := hmem e (List.mem_cons_self e es)
    have hpl := parseLine_fmt e hb.1 hb.2.1 hb.2.2
    simp only [List.map_cons, specEntries, hpl]
    rw [if_pos hm, if_neg (Nat.not_lt_zero e.id)]
    rw [ih (fun x hx => hmem x (List.mem_cons_of_mem e hx))
      (fun x hx => hbound x (List.mem_cons_of_mem e hx))]
    simp

lemma countP_take_eq (p : String → Bool) :
    ∀ (lines : List String) (j : Nat), j ≤ lines.length →
    (∀ k (hk : k < j), ∃ hkl : k < lines.length, p (lines.get ⟨k, hkl⟩) = true) →
    (lines.take j).countP p = j := by
  intro lines
  induction lines with
  | nil =>
    intro j hj _
    have : j = 0 := by simpa using hj
    subst this
    rfl
  | cons l ls ih =>
    intro j hj hall
    cases j with
    | zero => rfl
    | succ j2 =>
      rw [List.take_succ_cons, List.countP_cons]
      obtain ⟨_, hp0⟩ := hall 0 (by omega)
      have hp0' : p l = true := hp0
      have ihr := ih j2 (by simpa using hj) (fun k hk => by
        obtain ⟨hkl, hpk⟩ := hall (k + 1) (by omega)
        exact ⟨by simpa using hkl, hpk⟩)
      rw [ihr]
      simp [hp0']

/-! ### The claims -/

/-- C1: the spec requires per-file failure isolation with a complete
failure report and outputs for every succeeding file, but `main` calls
`unwrap` on each per-file parse result inside `par_iter().for_each`, so
the first `ParseError` panics and aborts the whole batch: processed in
one order nothing is written and no failure list exists; processed in
the other order only the already-finished file's output exists.  Both
linearizations end in a batch-aborting panic, never in a collected
per-file outcome. -/
theorem C1_batch_panics_on_first_failure :
    runBatch [4096] false [("bad", ["zz 1000 5"]), ("good", ["0 1000 5"])] = .panicked [] ∧
    runBatch [4096] false [("good", ["0 1000 5"]), ("bad", ["zz 1000 5"])] =
      .panicked [("good.unified", ["0000 1000 5"])] := by
  decide

/-- C2: whenever `parse_bb_trace_file` produces a trace, its length is
the number of input lines whose program counter is in the reference
list, it never exceeds the number of input lines, equality holds iff no
line was dropped, and the retained (pc, hit) pairs appear in input line
order. -/
theorem C2_filtering_correct (lines : List String) (valid_bb : List Nat)
    (entries : List BasicBlockEntry) (dropped : Nat)
    (h : parse_bb_trace_file lines valid_bb = .ok (entries, dropped)) :
    entries.length = lines.countP (lineRetained valid_bb) ∧
    entries.length ≤ lines.length ∧
    (entries.length = lines.length ↔ dropped = 0) ∧
    entries.map (fun e => (e.program_counter, e.hit_counter)) =
      lines.filterMap (retainedPair valid_bb) := by
  rw [parse_eq_spec] at h
  obtain ⟨c1, c2, c3⟩ := spec_ok_counts valid_bb lines 0 entries dropped h
  have hpairs := spec_pairs valid_bb lines 0 entries dropped h
  exact ⟨c1, by omega, by omega, hpairs⟩

theorem C2_filtering_correct_witness :
    parse_bb_trace_file ["0000 1000 5", "0001 3000 2", "0002 2000 7"] [4096, 8192] =
      .ok ([⟨0, 4096, 5⟩, ⟨1, 8192, 7⟩], 1) ∧
    ([⟨0, 4096, 5⟩, ⟨1, 8192, 7⟩] : List BasicBlockEntry).length =
      ["0000 1000 5", "0001 3000 2", "0002 2000 7"].countP (lineRetained [4096, 8192]) :=
  ⟨by decide,
   (C2_filtering_correct ["0000 1000 5", "0001 3000 2", "0002 2000 7"] [4096, 8192]
     [⟨0, 4096, 5⟩, ⟨1, 8192, 7⟩] 1 (by decide)).1⟩

/-- C3: when the source identifiers are contiguous ascending from 0
(line i parses with identifier i), the produced identifiers are the
contiguous strictly increasing sequence 0, 1, 2, …, and the first
produced identifier equals the first retained source identifier minus
the number of lines dropped before it. -/
theorem C3_compaction_correct (lines : List String) (valid_bb : List Nat)
    (entries : List BasicBlockEntry) (dropped : Nat)
    (hcontig : ∀ i (hi : i < lines.length),
      ∃ p h, parseLine (lines.get ⟨i, hi⟩) = .ok i p h)
    (h : parse_bb_trace_file lines valid_bb = .ok (entries, dropped)) :
    entries.map (fun e => e.id) = List.range entries.length ∧
    List.Chain' (fun a b => b = a + 1) (entries.map (fun e => e.id)) ∧
    (∀ e rest, entries = e :: rest →
      ∃ j, ∃ hj : j < lines.length, ∃ idj p hh,
        parseLine (lines.get ⟨j, hj⟩) = .ok idj p hh ∧
        (∀ k (hk : k < j),
          lineRetained valid_bb (lines.get ⟨k, Nat.lt_trans hk hj⟩) = false) ∧
        e.id = idj - (lines.take j).countP (lineDropped valid_bb)) := by
  rw [parse_eq_spec] at h
  have hid : ∀ i (hi : i < lines.length),
      ∃ p hh, parseLine (lines.get ⟨i, hi⟩) = .ok (0 + i) p hh := by
    intro i hi; simpa using hcontig i hi
  obtain ⟨es, d, hs, hmap⟩ := spec_ids_range valid_bb lines 0 0 le_rfl hid
  have hEq := hs.symm.trans h
  rw [StepResult.ok.injEq, Prod.mk.injEq] at hEq
  obtain ⟨hes, hd⟩ := hEq
  have hes2 : entries = es := hes.symm
  have hd2 : dropped = d := hd.symm
  subst hes2; subst hd2
  have hrange : entries.map (fun e => e.id) = List.range entries.length := by
    rw [hmap, List.range_eq_range']
  refine ⟨hrange, ?_, ?_⟩
  · rw [hrange, List.range_eq_range']
    exact chain_succ_range' entries.length 0
  · intro e rest hent
    subst hent
    obtain ⟨j, hj, idj, p, hh, hplj, hm, hbefore, hide⟩ :=
      spec_head valid_bb lines 0 e rest dropped h
    refine ⟨j, hj, idj, p, hh, hplj, hbefore, ?_⟩
    have hct : (lines.take j).countP (lineDropped valid_bb) = j := by
      apply countP_take_eq (lineDropped valid_bb) lines j (Nat.le_of_lt hj)
      intro k hk
      refine ⟨Nat.lt_trans hk hj, ?_⟩
      obtain ⟨p2, h2, hplk⟩ := hcontig k (Nat.lt_trans hk hj)
      have hplk2 : parseLine lines[k] = .ok k p2 h2 := hplk
      have hret := hbefore k hk
      simp [lineRetained, hplk2] at hret
      simp [lineDropped, hplk2]
      exact hret
    rw [hct]
    simpa using hide

theorem C3_compaction_correct_witness :
    ([⟨0, 4096, 5⟩, ⟨1, 8192, 7⟩] : List BasicBlockEntry).map (fun e => e.id) =
      List.range 2 :=
  (C3_compaction_correct ["0 1000 5", "1 3000 2", "2 2000 7"] [4096, 8192]
    [⟨0, 4096, 5⟩, ⟨1, 8192, 7⟩] 1
    (fun i hi => by
      simp only [List.length_cons, List.length_nil] at hi
      interval_cases i
      · exact ⟨4096, 5, show parseLine "0 1000 5" = LineOutcome.ok 0 4096 5 by decide⟩
      · exact ⟨12288, 2, show parseLine "1 3000 2" = LineOutcome.ok 1 12288 2 by decide⟩
      · exact ⟨8192, 7, show parseLine "2 2000 7" = LineOutcome.ok 2 8192 7 by decide⟩)
    (by decide)).1

/-- C4: whenever the line loop completes, the three accumulated vectors
have equal lengths, so the truncation is a no-op, both `assert_eq!`
integrity checks succeed (the assertion-panic branch of the tail is
unreachable), and the produced entry count equals the number of lines
that passed the membership test. -/
theorem C4_integrity_assertions_hold (lines : List String) (valid_bb : List Nat)
    (st : LoopState) (h : runLines valid_bb lines initState = .ok st) :
    (st.ids.take st.pcs.length).length = st.pcs.length ∧
    st.pcs.length = st.hits.length ∧
    parse_bb_trace_file lines valid_bb =
      .ok (mkEntries st.ids st.pcs st.hits, st.id_offset) ∧
    (mkEntries st.ids st.pcs st.hits).length = lines.countP (lineRetained valid_bb) := by
  obtain ⟨h1, h2⟩ := runLines_wf valid_bb lines initState st h rfl rfl
  have htake : st.ids.take st.pcs.length = st.ids := by rw [← h1, List.take_length]
  have hparse : parse_bb_trace_file lines valid_bb =
      .ok (mkEntries st.ids st.pcs st.hits, st.id_offset) := by
    rw [parse_eq_finishResult, h]
    show finishState st = _
    unfold finishState
    simp only [htake]
    rw [if_pos ⟨h1, h2⟩]
  refine ⟨by rw [htake, h1], h2, hparse, ?_⟩
  have hspec := hparse
  rw [parse_eq_spec] at hspec
  exact (spec_ok_counts valid_bb lines 0 _ _ hspec).1

theorem C4_integrity_assertions_hold_witness :
    runLines [4096] ["0 1000 5", "1 3000 2"] initState = .ok ⟨[0], [4096], [5], 1⟩ ∧
    parse_bb_trace_file ["0 1000 5", "1 3000 2"] [4096] =
      .ok (mkEntries [0] [4096] [5], 1) :=
  ⟨by decide, (C4_integrity_assertions_hold ["0 1000 5", "1 3000 2"] [4096]
    ⟨[0], [4096], [5], 1⟩ (by decide)).2.2.1⟩

/-- C5 (counterexample): the error value returned for a malformed field
carries no information about the offending line: two files failing at
different lines yield identical parse results and identical
context-wrapped per-file errors, so the error cannot name the offending
line; only the file name appears (added by `main`'s `with_context`). -/
theorem C5_error_has_no_line_information :
    parse_bb_trace_file ["zz 1000 5", "0 1000 5"] [4096] =
      parse_bb_trace_file ["0 1000 5", "zz 1000 5"] [4096] ∧
    parse_bb_trace_file ["zz 1000 5", "0 1000 5"] [4096] = .err .invalidDigit ∧
    processFile "a.trace" [4096] false ["zz 1000 5", "0 1000 5"] =
      processFile "a.trace" [4096] false ["0 1000 5", "zz 1000 5"] := by
  decide

/-- C5 (amended): if the lines before position j process without error
and line j has a field that fails its numeric parse, the whole file's
result is exactly that parse error (no partial trace), and `main` wraps
it with a context naming the offending file; the error itself carries no
line information. -/
theorem C5_parse_error_aborts_file (name : String) (strip : Bool)
    (lines : List String) (valid_bb : List Nat) (j : Nat) (hj : j < lines.length)
    (e : IntErrorKind) (st : LoopState)
    (hpre : runLines valid_bb (lines.take j) initState = .ok st)
    (hline : parseLine (lines.get ⟨j, hj⟩) = .err e) :
    parse_bb_trace_file lines valid_bb = .err e ∧
    processFile name valid_bb strip lines = .fileErr (contextForFile name) e := by
  have hrun : runLines valid_bb lines initState = .err e := by
    conv_lhs => rw [← List.take_append_drop j lines]
    rw [runLines_append, hpre]
    have hdrop : lines.drop j = lines[j] :: lines.drop (j + 1) :=
      List.drop_eq_getElem_cons hj
    have hline2 : parseLine lines[j] = .err e := hline
    rw [hdrop]
    simp [runLines, stepLine, hline2]
  have h1 : parse_bb_trace_file lines valid_bb = .err e := by
    rw [parse_eq_finishResult, hrun]
    rfl
  exact ⟨h1, by simp [processFile, h1]⟩

theorem C5_parse_error_aborts_file_witness :
    parse_bb_trace_file ["zz 1000 5"] [4096] = .err .invalidDigit ∧
    processFile "a.trace" [4096] false ["zz 1000 5"] =
      .fileErr (contextForFile "a.trace") .invalidDigit :=
  C5_parse_error_aborts_file "a.trace" false ["zz 1000 5"] [4096] 0 (by decide)
    .invalidDigit initState (by decide) (by decide)

/-- C6: the serializer renders the non-stripped form as the identifier
in lower-case hex zero-padded to 4 digits, the program counter in
lower-case unpadded hex and the hit counter in decimal, single-space
separated; the stripped form omits the identifier; all emitted digits
are lower-case; and the spec's concrete scenario produces exactly the
expected non-stripped and stripped outputs. -/
theorem C6_serializer_format :
    (∀ e : BasicBlockEntry,
      e.fmt false = hexPad4 e.id ++ " " ++ hexStr e.program_counter ++ " " ++
        decStr e.hit_counter ∧
      e.fmt true = hexStr e.program_counter ++ " " ++ decStr e.hit_counter) ∧
    (∀ n : Nat,
      (natDigits 16 n).all (fun c => "0123456789abcdef".toList.contains c) = true ∧
      (natDigits 10 n).all (fun c => "0123456789".toList.contains c) = true ∧
      (hexPad4 n).toList =
        List.replicate (4 - (natDigits 16 n).length) '0' ++ natDigits 16 n ∧
      4 ≤ (hexPad4 n).length) ∧
    processFile "t" [4096, 8192] false ["0000 1000 5", "0001 3000 2", "0002 2000 7"] =
      .written ["0000 1000 5", "0001 2000 7"] ∧
    processFile "t" [4096, 8192] true ["0000 1000 5", "0001 3000 2", "0002 2000 7"] =
      .written ["1000 5", "2000 7"] :=
  ⟨fun e => ⟨fmt_false_eq e, fmt_true_eq e⟩,
   fun n => ⟨natDigits_all_hex n, natDigits_all_dec n, rfl, hexPad4_length n⟩,
   by decide, by decide⟩

/-- C7: the reference loader includes exactly the values of lines that
parse as base-16 integers; lines that fail to parse are silently
excluded, contributing neither a member nor an error. -/
theorem C7_loader_lenient (lines : List String) (pc : Nat) :
    (pc ∈ load_valid_bb lines ↔ ∃ l ∈ lines, from_str_radix 16 l = .ok pc) ∧
    (load_valid_bb lines).length =
      lines.countP (fun l => ((from_str_radix 16 l).toOption).isSome) := by
  constructor
  · rw [load_valid_bb, List.mem_filterMap]
    constructor
    · rintro ⟨l, hl, hparse⟩
      refine ⟨l, hl, ?_⟩
      cases hfr : from_str_radix 16 l with
      | ok m =>
        rw [hfr] at hparse
        simp only [ParseIntResult.toOption, Option.some.injEq] at hparse
        rw [hparse]
      | err e2 =>
        rw [hfr] at hparse
        simp [ParseIntResult.toOption] at hparse
    · rintro ⟨l, hl, hparse⟩
      exact ⟨l, hl, by rw [hparse]; rfl⟩
  · rw [load_valid_bb]
    induction lines with
    | nil => rfl
    | cons l ls ih =>
      rw [List.filterMap_cons, List.countP_cons]
      cases hfr : from_str_radix 16 l with
      | ok m =>
        simp only [hfr, toOption_ok, Option.isSome_some, List.length_cons, ih]
        simp
      | err e2 =>
        simp only [hfr, toOption_err, Option.isSome_none, ih]
        simp

/-- C8: unification is idempotent: serializing any trace whose
addresses all lie in the reference list and whose fields are `usize`
values, then re-running parse+filter+remap on the output, drops nothing
and returns the identical trace with drop count 0. -/
theorem C8_unification_idempotent (entries : List BasicBlockEntry) (valid_bb : List Nat)
    (hmem : ∀ e ∈ entries, valid_bb.contains e.program_counter = true)
    (hbound : ∀ e ∈ entries, e.id < USIZE_BOUND ∧ e.program_counter < USIZE_BOUND ∧
      e.hit_counter < USIZE_BOUND) :
    parse_bb_trace_file (write_trace_file entries false) valid_bb = .ok (entries, 0) := by
  rw [parse_eq_spec]
  exact spec_roundtrip valid_bb entries hmem hbound

theorem C8_unification_idempotent_witness :
    parse_bb_trace_file (write_trace_file [⟨0, 4096, 5⟩, ⟨1, 8192, 7⟩] false)
      [4096, 8192] = .ok ([⟨0, 4096, 5⟩, ⟨1, 8192, 7⟩], 0) :=
  C8_unification_idempotent [⟨0, 4096, 5⟩, ⟨1, 8192, 7⟩] [4096, 8192]
    (by decide) (by decide)

/-- C9 (counterexample): a line with fewer than three fields does not
always panic: on the spaceless line "zz" the first field's hex parse
fails before `parts[1]` is indexed, so the file's result is a
`ParseError`, not a panic. -/
theorem C9_short_line_can_error_first :
    (splitn 3 ' ' "zz".toList).length = 1 ∧
    parseLine "zz" = .err .invalidDigit ∧
    parse_bb_trace_file ["zz"] [] = .err .invalidDigit := by
  decide

/-- C9 (amended): a line with fewer than two spaces yields fewer than
three fields, and when every field that is present parses as hex the
loop body panics by indexing `parts[1]` or `parts[2]` out of bounds;
`parts[2]` (and `parts[1]`) are in bounds only when the line has at
least two spaces. -/
theorem C9_short_line_panics (line : String)
    (hcnt : line.toList.countP (fun c => c == ' ') < 2)
    (hfields : ∀ p ∈ splitn 3 ' ' line.toList,
      ((from_str_radix 16 (String.mk p)).toOption).isSome = true) :
    parseLine line = .panic ∧ (splitn 3 ' ' line.toList).length < 3 := by
  have hlen := splitn3_length line.toList
  rw [min_eq_right (by omega)] at hlen
  have hlt : (splitn 3 ' ' line.toList).length < 3 := by omega
  refine ⟨?_, hlt⟩
  cases hp : splitn 3 ' ' line.toList with
  | nil =>
    unfold parseLine
    rw [hp]
    simp [List.get?]
  | cons p0 rest =>
    have h0 := hfields p0 (by rw [hp]; exact List.mem_cons_self _ _)
    obtain ⟨n0, hn0⟩ := toOption_isSome _ h0
    cases rest with
    | nil =>
      unfold parseLine
      rw [hp]
      simp [List.get?, hn0]
    | cons p1 rest2 =>
      have h1 := hfields p1 (by rw [hp]; simp)
      obtain ⟨n1, hn1⟩ := toOption_isSome _ h1
      cases rest2 with
      | nil =>
        unfold parseLine
        rw [hp]
        simp [List.get?, hn0, hn1]
      | cons p2 rest3 =>
        rw [hp] at hlt
        simp at hlt
        omega

theorem C9_short_line_panics_witness :
    parseLine "12 34" = .panic ∧ (splitn 3 ' ' "12 34".toList).length < 3 :=
  C9_short_line_panics "12 34" (by decide) (by decide)

/-- C10: when the parsed identifiers are ascending and gap-free from 0,
the running drop count never exceeds the identifier of a retained line,
so the remapping subtraction cannot underflow and parsing always
completes with a trace; without that precondition the concrete input
whose retained line has identifier 0 after one dropped line underflows
the debug-mode subtraction and panics. -/
theorem C10_subtraction_never_underflows :
    (∀ (lines : List String) (valid_bb : List Nat),
      (∀ i (hi : i < lines.length),
        ∃ p h, parseLine (lines.get ⟨i, hi⟩) = .ok i p h) →
      ∃ entries dropped,
        parse_bb_trace_file lines valid_bb = .ok (entries, dropped)) ∧
    parse_bb_trace_file ["5 9999 1", "0 1000 5"] [4096] = .panic := by
  constructor
  · intro lines valid_bb hcontig
    have hid : ∀ i (hi : i < lines.length),
        ∃ p h, parseLine (lines.get ⟨i, hi⟩) = .ok (0 + i) p h := by
      intro i hi; simpa using hcontig i hi
    obtain ⟨es, d, hs, _⟩ := spec_ids_range valid_bb lines 0 0 le_rfl hid
    exact ⟨es, d, by rw [parse_eq_spec]; exact hs⟩
  · decide

theorem C10_subtraction_never_underflows_witness :
    ∃ entries dropped,
      parse_bb_trace_file ["0 1000 5"] [4096] = .ok (entries, dropped) :=
  C10_subtraction_never_underflows.1 ["0 1000 5"] [4096]
    (fun i hi => by
      simp only [List.length_singleton] at hi
      interval_cases i
      exact ⟨4096, 5, show parseLine "0 1000 5" = LineOutcome.ok 0 4096 5 by decide⟩)

end Tut
